import Mathlib

/-!
Verification of the execution core of the kajiki template engine
(src/kajiki/template.py).  Python strings are modelled as `List Char`,
Python dicts as association lists with unique keys (`setk` updates in
place, preserving insertion order, exactly as a CPython dict does).
-/

namespace KajikiSpec

abbrev Str := List Char

/-- Python dict lookup `d[k]` / `d.get(k)`. -/
def getk {α : Type} : List (Str × α) → Str → Option α
  | [], _ => Option.none
  | (k', v) :: rest, k => if k' = k then some v else getk rest k

/-- Python dict assignment `d[k] = v`: replaces the binding in place when
the key is present, appends otherwise (insertion-order semantics). -/
def setk {α : Type} : List (Str × α) → Str → α → List (Str × α)
  | [], k, v => [(k, v)]
  | (k', v') :: rest, k, v =>
    if k' = k then (k, v) :: rest else (k', v') :: setk rest k v

/-- Python dict deletion `del d[k]` (no-op when absent). -/
def removek {α : Type} : List (Str × α) → Str → List (Str × α)
  | [], _ => []
  | (k', v') :: rest, k =>
    if k' = k then removek rest k else (k', v') :: removek rest k

abbrev keys {α : Type} (ns : List (Str × α)) : List Str := ns.map Prod.fst

/-- The unique-keys invariant every materialised Python dict satisfies. -/
abbrev NodupKeys {α : Type} (ns : List (Str × α)) : Prop := (keys ns).Nodup

theorem getk_setk_self {α : Type} (ns : List (Str × α)) (k : Str) (v : α) :
    getk (setk ns k v) k = some v := by
  induction ns with
  | nil => simp [setk, getk]
  | cons hd tl ih =>
    obtain ⟨k', v'⟩ := hd
    by_cases h : k' = k
    · simp [setk, getk, h]
    · simp [setk, getk, h, ih]

theorem getk_setk_ne {α : Type} (ns : List (Str × α)) {k j : Str} (v : α)
    (h : j ≠ k) : getk (setk ns k v) j = getk ns j := by
  have hkj : ¬ (k = j) := fun he => h he.symm
  induction ns with
  | nil => simp [setk, getk, hkj]
  | cons hd tl ih =>
    obtain ⟨k', v'⟩ := hd
    by_cases hk : k' = k
    · subst hk
      simp [setk, getk, hkj]
    · simp [setk, getk, hk, ih]

theorem removek_cons {α : Type} (k' : Str) (v' : α) (tl : List (Str × α))
    (k : Str) :
    removek ((k', v') :: tl) k =
      if k' = k then removek tl k else (k', v') :: removek tl k := rfl

theorem setk_cons {α : Type} (k' : Str) (v' : α) (tl : List (Str × α))
    (k : Str) (v : α) :
    setk ((k', v') :: tl) k v =
      if k' = k then (k, v) :: tl else (k', v') :: setk tl k v := rfl

theorem getk_cons {α : Type} (k' : Str) (v' : α) (tl : List (Str × α))
    (k : Str) :
    getk ((k', v') :: tl) k = if k' = k then some v' else getk tl k := rfl

theorem getk_removek_self {α : Type} (ns : List (Str × α)) (k : Str) :
    getk (removek ns k) k = Option.none := by
  induction ns with
  | nil => rfl
  | cons hd tl ih =>
    obtain ⟨k', v'⟩ := hd
    by_cases h : k' = k
    · rw [removek_cons, if_pos h]
      exact ih
    · rw [removek_cons, if_neg h, getk_cons, if_neg h]
      exact ih

theorem getk_removek_ne {α : Type} (ns : List (Str × α)) {k j : Str}
    (h : j ≠ k) : getk (removek ns k) j = getk ns j := by
  have hkj : ¬ (k = j) := fun he => h he.symm
  induction ns with
  | nil => rfl
  | cons hd tl ih =>
    obtain ⟨k', v'⟩ := hd
    by_cases hk : k' = k
    · subst hk
      rw [removek_cons, if_pos rfl, getk_cons, if_neg hkj]
      exact ih
    · rw [removek_cons, if_neg hk, getk_cons, getk_cons, ih]

theorem getk_some_mem {α : Type} {ns : List (Str × α)} {k : Str} {v : α}
    (h : getk ns k = some v) : (k, v) ∈ ns := by
  induction ns with
  | nil => exact absurd h (by simp [getk])
  | cons hd tl ih =>
    obtain ⟨k', v'⟩ := hd
    by_cases hk : k' = k
    · subst hk
      simp only [getk, if_pos rfl] at h
      have hv := Option.some.inj h
      subst hv
      exact List.mem_cons_self _ _
    · simp only [getk, if_neg hk] at h
      exact List.mem_cons_of_mem _ (ih h)

theorem getk_none_not_mem_keys {α : Type} {ns : List (Str × α)} {k : Str}
    (h : getk ns k = Option.none) : k ∉ keys ns := by
  induction ns with
  | nil => simp [keys]
  | cons hd tl ih =>
    obtain ⟨k', v'⟩ := hd
    by_cases hk : k' = k
    · simp [getk, hk] at h
    · simp only [getk, if_neg hk] at h
      intro hmem
      simp only [keys, List.map_cons, List.mem_cons] at hmem
      rcases hmem with he | hmem2
      · exact hk he.symm
      · exact ih h hmem2

theorem keys_setk_of_mem {α : Type} (ns : List (Str × α)) (k : Str) (v : α)
    (h : k ∈ keys ns) : keys (setk ns k v) = keys ns := by
  induction ns with
  | nil => simp [keys] at h
  | cons hd tl ih =>
    obtain ⟨k', v'⟩ := hd
    by_cases hk : k' = k
    · subst hk
      rw [setk_cons, if_pos rfl]
      rfl
    · simp only [keys, List.map_cons, List.mem_cons] at h
      rcases h with he | hm
      · exact absurd he.symm hk
      · rw [setk_cons, if_neg hk]
        show k' :: keys (setk tl k v) = k' :: keys tl
        rw [ih hm]

theorem keys_setk_of_not_mem {α : Type} (ns : List (Str × α)) (k : Str) (v : α)
    (h : k ∉ keys ns) : keys (setk ns k v) = keys ns ++ [k] := by
  induction ns with
  | nil => rfl
  | cons hd tl ih =>
    obtain ⟨k', v'⟩ := hd
    simp only [keys, List.map_cons, List.mem_cons] at h
    push_neg at h
    have hne : ¬ (k' = k) := fun he => h.1 he.symm
    rw [setk_cons, if_neg hne]
    show k' :: keys (setk tl k v) = (k' :: keys tl) ++ [k]
    rw [ih h.2]
    rfl

theorem nodupKeys_setk {α : Type} (ns : List (Str × α)) (k : Str) (v : α)
    (h : NodupKeys ns) : NodupKeys (setk ns k v) := by
  by_cases hm : k ∈ keys ns
  · show (keys (setk ns k v)).Nodup
    rw [keys_setk_of_mem ns k v hm]
    exact h
  · show (keys (setk ns k v)).Nodup
    rw [keys_setk_of_not_mem ns k v hm]
    rw [List.nodup_append]
    refine ⟨h, List.nodup_singleton k, ?_⟩
    intro a ha hb
    rw [List.mem_singleton] at hb
    exact hm (hb ▸ ha)

/-! ## The Escaper (`_Template._escape`) -/

/-- One Python `str.replace(c, rep)` pass for a single-character needle:
the replacement text is spliced in and never rescanned. -/
def replaceChar (c : Char) (rep : Str) : Str → Str
  | [] => []
  | x :: xs => if x = c then rep ++ replaceChar c rep xs else x :: replaceChar c rep xs

/-- The scan set of `_re_escape = re.compile(r'&|<|>|"')`. -/
def isEscChar (c : Char) : Bool :=
  c = '&' || c = '<' || c = '>' || c = '"'

/-- `self._re_escape.search(uval)` succeeds. -/
def hasSpecial (s : Str) : Bool := s.any isEscChar

/-- The text branch of `_Template._escape`: scan first, then the four
chained replaces `&`→`&amp;`, `<`→`&lt;`, `>`→`&gt;`, `"`→`&quot;`
applied in that order; untouched when the scan finds nothing. -/
def escapeStr (s : Str) : Str :=
  if hasSpecial s then
    replaceChar '"' "&quot;".data
      (replaceChar '>' "&gt;".data
        (replaceChar '<' "&lt;".data
          (replaceChar '&' "&amp;".data s)))
  else s

/-- The value universe `_escape` discriminates on: Python `None`, a kajiki
`flattener`, a value with a `__html__` capability (carrying the string that
capability returns), or ordinary text. -/
inductive EscVal where
  | pynone
  | flat (s : Str)
  | htmlObj (out : Str)
  | text (s : Str)
deriving DecidableEq

/-- `_Template._escape`: `None` and `flattener` values pass through,
`__html__` results are used verbatim, text is escaped by `escapeStr`. -/
def escape : EscVal → EscVal
  | .pynone => .pynone
  | .flat s => .flat s
  | .htmlObj out => .text out
  | .text s => .text (escapeStr s)

/-- Per-character view of the replacement policy. -/
def escChar (c : Char) : Str :=
  if c = '&' then "&amp;".data
  else if c = '<' then "&lt;".data
  else if c = '>' then "&gt;".data
  else if c = '"' then "&quot;".data
  else [c]

theorem replaceChar_cons (c : Char) (rep : Str) (x : Char) (xs : Str) :
    replaceChar c rep (x :: xs) =
      if x = c then rep ++ replaceChar c rep xs
      else x :: replaceChar c rep xs := rfl

theorem replaceChar_append (c : Char) (rep : Str) (a b : Str) :
    replaceChar c rep (a ++ b) = replaceChar c rep a ++ replaceChar c rep b := by
  induction a with
  | nil => rfl
  | cons x xs ih =>
    by_cases h : x = c
    · rw [List.cons_append, replaceChar_cons, if_pos h, replaceChar_cons,
        if_pos h, ih, List.append_assoc]
    · rw [List.cons_append, replaceChar_cons, if_neg h, replaceChar_cons,
        if_neg h, ih, List.cons_append]

theorem replaceChar_of_not_mem (c : Char) (rep : Str) (s : Str)
    (h : c ∉ s) : replaceChar c rep s = s := by
  induction s with
  | nil => rfl
  | cons x xs ih =>
    simp only [List.mem_cons] at h
    push_neg at h
    have hne : ¬ (x = c) := fun he => h.1 he.symm
    rw [replaceChar_cons, if_neg hne, ih h.2]

theorem escChar_of_plain (x : Char) (h1 : ¬ x = '&') (h2 : ¬ x = '<')
    (h3 : ¬ x = '>') (h4 : ¬ x = '"') : escChar x = [x] := by
  rw [escChar, if_neg h1, if_neg h2, if_neg h3, if_neg h4]

theorem escape_chain_eq_flatMap (s : Str) :
    replaceChar '"' "&quot;".data
      (replaceChar '>' "&gt;".data
        (replaceChar '<' "&lt;".data
          (replaceChar '&' "&amp;".data s))) = s.flatMap escChar := by
  induction s with
  | nil => rfl
  | cons x xs ih =>
    rw [List.flatMap_cons]
    by_cases h1 : x = '&'
    · subst h1
      rw [replaceChar_cons, if_pos rfl, replaceChar_append,
        replaceChar_of_not_mem '<' _ "&amp;".data (by decide),
        replaceChar_append,
        replaceChar_of_not_mem '>' _ "&amp;".data (by decide),
        replaceChar_append,
        replaceChar_of_not_mem '"' _ "&amp;".data (by decide),
        ih, show escChar '&' = "&amp;".data from by decide]
    · by_cases h2 : x = '<'
      · subst h2
        rw [replaceChar_cons, if_neg h1, replaceChar_cons, if_pos rfl,
          replaceChar_append,
          replaceChar_of_not_mem '>' _ "&lt;".data (by decide),
          replaceChar_append,
          replaceChar_of_not_mem '"' _ "&lt;".data (by decide),
          ih, show escChar '<' = "&lt;".data from by decide]
      · by_cases h3 : x = '>'
        · subst h3
          rw [replaceChar_cons, if_neg h1, replaceChar_cons, if_neg h2,
            replaceChar_cons, if_pos rfl, replaceChar_append,
            replaceChar_of_not_mem '"' _ "&gt;".data (by decide),
            ih, show escChar '>' = "&gt;".data from by decide]
        · by_cases h4 : x = '"'
          · subst h4
            rw [replaceChar_cons, if_neg h1, replaceChar_cons, if_neg h2,
              replaceChar_cons, if_neg h3, replaceChar_cons, if_pos rfl,
              ih, show escChar '"' = "&quot;".data from by decide]
          · rw [replaceChar_cons, if_neg h1, replaceChar_cons, if_neg h2,
              replaceChar_cons, if_neg h3, replaceChar_cons, if_neg h4,
              ih, escChar_of_plain x h1 h2 h3 h4, List.singleton_append]

theorem flatMap_escChar_of_no_special (s : Str) (h : hasSpecial s = false) :
    s.flatMap escChar = s := by
  induction s with
  | nil => rfl
  | cons x xs ih =>
    have h' : isEscChar x = false ∧ hasSpecial xs = false := by
      have : (isEscChar x || xs.any isEscChar) = false := by
        simpa [hasSpecial, List.any_cons] using h
      exact ⟨by simp_all, by simpa [hasSpecial] using (Bool.or_eq_false_iff.mp this).2⟩
    have hx : ¬ x = '&' ∧ ¬ x = '<' ∧ ¬ x = '>' ∧ ¬ x = '"' := by
      have := h'.1
      rw [isEscChar] at this
      simpa [Bool.or_eq_false_iff, decide_eq_false_iff_not, and_assoc]
        using this
    rw [List.flatMap_cons, escChar_of_plain x hx.1 hx.2.1 hx.2.2.1 hx.2.2.2,
      ih h'.2, List.singleton_append]

theorem escapeStr_eq_flatMap (s : Str) : escapeStr s = s.flatMap escChar := by
  unfold escapeStr
  by_cases h : hasSpecial s
  · rw [if_pos h, escape_chain_eq_flatMap]
  · rw [if_neg h, flatMap_escChar_of_no_special s (by simpa using h)]

/-! ## `_Template._collect` -/

/-- `_collect(it)`: drop `None` fragments, join the rest, and return
Python `None` (absent) when nothing remains. -/
def _collect (it : List (Option Str)) : Option Str :=
  let result := it.filterMap id
  if result.isEmpty then Option.none else some result.flatten

/-! ## With-scope stack (`_push_with` / `_pop_with`) -/

/-- Values a locals snapshot can bind; `emptyTup` is Python's `()`. -/
inductive PyVal where
  | emptyTup
  | int (n : Int)
  | strv (s : Str)
deriving DecidableEq

/-- `_push_with`: capture `locals_.get(k, ())` for each name, push the list. -/
def _push_with (stack : List (List PyVal)) (locals_ : List (Str × PyVal))
    (vars : List Str) : List (List PyVal) :=
  (vars.map (fun k => (getk locals_ k).getD PyVal.emptyTup)) :: stack

/-- `_pop_with`: `self._with_stack.pop()` (raises on an empty stack,
modelled as `Option.none`). -/
def _pop_with (stack : List (List PyVal)) :
    Option (List PyVal × List (List PyVal)) :=
  match stack with
  | [] => Option.none
  | top :: rest => some (top, rest)

/-! ## Attribute renderer (`_Template._render_attrs`)

`sorted(attrs)` sorts the (name, value) pairs in Python tuple order: by
name first, then by value.  We realise that as insertion sort under a
total order; values of differing types under a duplicate name are
ordered by a fixed ranking (CPython would raise `TypeError` there, and a
mapping input never produces duplicate names). -/

abbrev charLtB (a b : Char) : Bool := decide (a.toNat < b.toNat)

/-- Python's ≤ on text (code-point lexicographic). -/
def strLeB : Str → Str → Bool
  | [], _ => true
  | _ :: _, [] => false
  | a :: as, b :: bs =>
    if charLtB a b then true
    else if charLtB b a then false
    else strLeB as bs

theorem strLeB_cons (a b : Char) (as bs : Str) :
    strLeB (a :: as) (b :: bs) =
      if charLtB a b then true
      else if charLtB b a then false
      else strLeB as bs := rfl

theorem char_toNat_inj {a b : Char} (h : a.toNat = b.toNat) : a = b :=
  Char.eq_of_val_eq (UInt32.ext h)

theorem strLeB_cons_elim {a b : Char} {as bs : Str}
    (h : strLeB (a :: as) (b :: bs) = true) :
    a.toNat < b.toNat ∨ (a.toNat = b.toNat ∧ strLeB as bs = true) := by
  rw [strLeB_cons] at h
  by_cases h1 : charLtB a b = true
  · exact Or.inl (of_decide_eq_true h1)
  · by_cases h2 : charLtB b a = true
    · rw [if_neg h1, if_pos h2] at h
      exact Bool.noConfusion h
    · rw [if_neg h1, if_neg h2] at h
      have n1 : ¬ a.toNat < b.toNat := fun hl => h1 (decide_eq_true hl)
      have n2 : ¬ b.toNat < a.toNat := fun hl => h2 (decide_eq_true hl)
      exact Or.inr ⟨by omega, h⟩

theorem strLeB_cons_intro_lt {a b : Char} (h : a.toNat < b.toNat)
    (as bs : Str) : strLeB (a :: as) (b :: bs) = true := by
  rw [strLeB_cons, if_pos (decide_eq_true h)]

theorem strLeB_cons_intro_eq {a b : Char} (h : a.toNat = b.toNat)
    {as bs : Str} (ht : strLeB as bs = true) :
    strLeB (a :: as) (b :: bs) = true := by
  have n1 : ¬ (charLtB a b = true) := fun hc => by
    have := of_decide_eq_true hc
    omega
  have n2 : ¬ (charLtB b a = true) := fun hc => by
    have := of_decide_eq_true hc
    omega
  rw [strLeB_cons, if_neg n1, if_neg n2]
  exact ht

theorem strLeB_total : ∀ (a b : Str), strLeB a b = true ∨ strLeB b a = true
  | [], _ => Or.inl rfl
  | _ :: _, [] => Or.inr rfl
  | a :: as, b :: bs => by
    rcases Nat.lt_trichotomy a.toNat b.toNat with h | h | h
    · exact Or.inl (strLeB_cons_intro_lt h _ _)
    · rcases strLeB_total as bs with ht | ht
      · exact Or.inl (strLeB_cons_intro_eq h ht)
      · exact Or.inr (strLeB_cons_intro_eq h.symm ht)
    · exact Or.inr (strLeB_cons_intro_lt h _ _)

theorem strLeB_trans : ∀ (a b c : Str), strLeB a b = true →
    strLeB b c = true → strLeB a c = true
  | [], _, _, _, _ => rfl
  | _ :: _, [], _, h1, _ => Bool.noConfusion h1
  | _ :: _, _ :: _, [], _, h2 => Bool.noConfusion h2
  | a :: as, b :: bs, c :: cs, h1, h2 => by
    rcases strLeB_cons_elim h1 with hl | ⟨he, ht⟩
    · rcases strLeB_cons_elim h2 with hl2 | ⟨he2, ht2⟩
      · exact strLeB_cons_intro_lt (by omega) _ _
      · exact strLeB_cons_intro_lt (by omega) _ _
    · rcases strLeB_cons_elim h2 with hl2 | ⟨he2, ht2⟩
      · exact strLeB_cons_intro_lt (by omega) _ _
      · exact strLeB_cons_intro_eq (by omega) (strLeB_trans as bs cs ht ht2)

theorem strLeB_antisymm : ∀ (a b : Str), strLeB a b = true →
    strLeB b a = true → a = b
  | [], [], _, _ => rfl
  | [], _ :: _, _, h2 => Bool.noConfusion h2
  | _ :: _, [], h1, _ => Bool.noConfusion h1
  | a :: as, b :: bs, h1, h2 => by
    rcases strLeB_cons_elim h1 with hl | ⟨he, ht⟩
    · rcases strLeB_cons_elim h2 with hl2 | ⟨he2, ht2⟩
      · exact absurd hl (by omega)
      · exact absurd hl (by omega)
    · rcases strLeB_cons_elim h2 with hl2 | ⟨he2, ht2⟩
      · exact absurd hl2 (by omega)
      · have hab : a = b := char_toNat_inj he
        subst hab
        rw [strLeB_antisymm as bs ht ht2]

/-- The attribute-value universe `_render_attrs` discriminates on:
text, Python booleans, and Python `None` (the omit marker). -/
inductive AttrVal where
  | strv (s : Str)
  | boolv (b : Bool)
  | omitv
deriving DecidableEq

/-- Sort key embedding `AttrVal` into `Str`, ranking
`None < False < True < text` (CPython would raise on such a mixed
comparison; it can only arise from duplicate names in a pair sequence). -/
def avKey : AttrVal → Str
  | .omitv => []
  | .boolv false => ['0']
  | .boolv true => ['1']
  | .strv s => 'z' :: s

theorem avKey_inj : ∀ {v w : AttrVal}, avKey v = avKey w → v = w := by
  intro v w h
  cases v with
  | strv s =>
    cases w with
    | strv t =>
      simp only [avKey] at h
      injection h with h1 h2
      rw [h2]
    | boolv b =>
      cases b <;>
        (simp only [avKey] at h
         injection h with h1 h2
         exact absurd h1 (by decide))
    | omitv =>
      simp only [avKey] at h
      exact List.noConfusion h
  | boolv b =>
    cases w with
    | strv t =>
      cases b <;>
        (simp only [avKey] at h
         injection h with h1 h2
         exact absurd h1 (by decide))
    | boolv c =>
      cases b <;> cases c <;> first | rfl | exact absurd h (by decide)
    | omitv => cases b <;> exact absurd h (by decide)
  | omitv =>
    cases w with
    | strv t =>
      simp only [avKey] at h
      exact List.noConfusion h
    | boolv c => cases c <;> exact absurd h (by decide)
    | omitv => rfl

/-- Python tuple comparison `(k1, v1) <= (k2, v2)` as `sorted` uses it. -/
def pairLeB (p q : Str × AttrVal) : Bool :=
  if p.1 = q.1 then strLeB (avKey p.2) (avKey q.2) else strLeB p.1 q.1

def attrLe (p q : Str × AttrVal) : Prop := pairLeB p q = true

instance : DecidableRel attrLe :=
  fun p q => inferInstanceAs (Decidable (pairLeB p q = true))

theorem pairLeB_total (p q : Str × AttrVal) :
    pairLeB p q = true ∨ pairLeB q p = true := by
  unfold pairLeB
  by_cases h : p.1 = q.1
  · rw [if_pos h, if_pos h.symm]
    exact strLeB_total _ _
  · rw [if_neg h, if_neg (fun he => h he.symm)]
    exact strLeB_total _ _

theorem pairLeB_trans {p q r : Str × AttrVal} (h1 : pairLeB p q = true)
    (h2 : pairLeB q r = true) : pairLeB p r = true := by
  unfold pairLeB at h1 h2 ⊢
  by_cases e1 : p.1 = q.1
  · by_cases e2 : q.1 = r.1
    · rw [if_pos e1] at h1
      rw [if_pos e2] at h2
      rw [if_pos (e1.trans e2)]
      exact strLeB_trans _ _ _ h1 h2
    · rw [if_neg e2] at h2
      rw [if_neg (fun he => e2 (e1.symm.trans he)), e1]
      exact h2
  · by_cases e2 : q.1 = r.1
    · rw [if_neg e1] at h1
      rw [if_neg (fun he => e1 (he.trans e2.symm)), ← e2]
      exact h1
    · rw [if_neg e1] at h1
      rw [if_neg e2] at h2
      have hpr : p.1 ≠ r.1 := by
        intro he
        exact e1 (strLeB_antisymm _ _ h1 (he ▸ h2))
      rw [if_neg hpr]
      exact strLeB_trans _ _ _ h1 h2

theorem pairLeB_antisymm {p q : Str × AttrVal} (h1 : pairLeB p q = true)
    (h2 : pairLeB q p = true) : p = q := by
  unfold pairLeB at h1 h2
  by_cases e : p.1 = q.1
  · rw [if_pos e] at h1
    rw [if_pos e.symm] at h2
    have hv : p.2 = q.2 := avKey_inj (strLeB_antisymm _ _ h1 h2)
    exact Prod.ext e hv
  · rw [if_neg e] at h1
    rw [if_neg (fun he => e he.symm)] at h2
    exact absurd (strLeB_antisymm _ _ h1 h2) e

instance : IsTotal (Str × AttrVal) attrLe := ⟨fun p q => pairLeB_total p q⟩

instance : IsTrans (Str × AttrVal) attrLe :=
  ⟨fun _ _ _ h1 h2 => pairLeB_trans h1 h2⟩

instance : IsAntisymm (Str × AttrVal) attrLe :=
  ⟨fun _ _ h1 h2 => pairLeB_antisymm h1 h2⟩

/-- `sorted(attrs)` on the (name, value) pairs. -/
def sortAttrs (attrs : List (Str × AttrVal)) : List (Str × AttrVal) :=
  attrs.insertionSort attrLe

/-- Modelled from the spec: the set of names recognized as boolean-style
HTML attributes (`HTML_EMPTY_ATTRS` lives in `kajiki.html_utils`, which
is outside the core source; the spec names `checked` as a member and
calls them "boolean-style HTML attributes"). -/
def HTML_EMPTY_ATTRS : List Str :=
  ["checked", "disabled", "readonly", "multiple", "selected", "nohref",
    "ismap", "declare", "defer"].map String.data

def htmlEmptyAttr (k : Str) : Bool := decide (k ∈ HTML_EMPTY_ATTRS)

/-- The `v = k if v else None` rewrite for recognized boolean attributes. -/
def boolRewrite (k : Str) (v : AttrVal) : AttrVal :=
  if htmlEmptyAttr k = true ∧ (v = .boolv true ∨ v = .boolv false) then
    (if v = .boolv true then .strv k else .omitv)
  else v

/-- Python `str(value)` on an attribute value (the `None` arm is dead:
`None` is skipped before rendering). -/
def avText : AttrVal → Str
  | .strv s => s
  | .boolv true => "True".data
  | .boolv false => "False".data
  | .omitv => "None".data

/-- The body of `_render_attrs`'s loop for one (name, value) pair:
`None` yields nothing; a recognized boolean attribute in an html-family
mode yields `' ' + k.lower()`; otherwise `' %s="%s"' % (k, _escape(v))`. -/
def attrFrag (mode : Str) (kv : Str × AttrVal) : Option Str :=
  let k := kv.1
  let v := boolRewrite kv.1 kv.2
  if v = .omitv then Option.none
  else if "html".data.isPrefixOf mode = true ∧ htmlEmptyAttr k = true then
    some (' ' :: k.map Char.toLower)
  else
    some (' ' :: (k ++ '=' :: '"' :: (escapeStr (avText v) ++ ['"'])))

/-- `_Template._render_attrs` over a materialised pair sequence (a
mapping input contributes its `items()` here). -/
def _render_attrs (attrs : List (Str × AttrVal)) (mode : Str) : List Str :=
  (sortAttrs attrs).filterMap (attrFrag mode)

/-! ## Render-program loader: the source remap table of `from_ir`

Each generated line carries an optional original-template line number
(`l._lineno`, with `None` — and a falsy 0 — read as 0 via `or 0`). -/

/-- The loop of `from_ir`: `lno = max(last_lineno, l._lineno or 0)`;
entries are `(i + 1, lno)`, and `last_lineno` carries forward. -/
def build_linenos : Nat → Nat → List (Option Nat) → List (Nat × Nat)
  | _, _, [] => []
  | last, i, l :: ls =>
    let lno := max last (l.getD 0)
    (i, lno) :: build_linenos lno (i + 1) ls

/-- `py_linenos` as computed by `from_ir` over the annotated lines. -/
def py_linenos (lines : List (Option Nat)) : List (Nat × Nat) :=
  build_linenos 0 1 lines

/-- Running maximum of the annotations, seeded with `last`. -/
def foldMaxFrom (last : Nat) (ls : List (Option Nat)) : Nat :=
  ls.foldl (fun a o => max a (o.getD 0)) last

theorem foldMaxFrom_cons (last : Nat) (l : Option Nat) (ls : List (Option Nat)) :
    foldMaxFrom last (l :: ls) = foldMaxFrom (max last (l.getD 0)) ls := rfl

theorem build_linenos_get? :
    ∀ (ls : List (Option Nat)) (last i j : Nat), j < ls.length →
      (build_linenos last i ls).get? j =
        some (i + j, foldMaxFrom last (ls.take (j + 1)))
  | [], _, _, j, h => absurd h (by simp)
  | l :: ls, last, i, 0, _ => by
    simp [build_linenos, foldMaxFrom_cons, foldMaxFrom]
  | l :: ls, last, i, j + 1, h => by
    have hj : j < ls.length := by
      simpa using Nat.lt_of_succ_lt_succ h
    show (build_linenos (max last (l.getD 0)) (i + 1) ls).get? j = _
    rw [build_linenos_get? ls (max last (l.getD 0)) (i + 1) j hj]
    rw [List.take_succ_cons, foldMaxFrom_cons]
    congr 2
    omega

theorem build_linenos_snd_chain :
    ∀ (ls : List (Option Nat)) (last i : Nat),
      List.Chain (· ≤ ·) last ((build_linenos last i ls).map Prod.snd)
  | [], _, _ => List.Chain.nil
  | l :: ls, last, i => by
    show List.Chain (· ≤ ·) last
      (max last (l.getD 0) :: (build_linenos (max last (l.getD 0)) (i + 1) ls).map Prod.snd)
    exact List.Chain.cons (Nat.le_max_left _ _)
      (build_linenos_snd_chain ls (max last (l.getD 0)) (i + 1))

/-! ## Inheritance: `_Template._extend`

A template instance is modelled by its identity, its `__globals__`
namespace, and its instance attributes (the targets of `setattr`).
Instances referenced from a namespace are referred to by identity, as
Python object references are. -/

/-- Values appearing in a template namespace or as instance attributes:
bound `TplFunc`s (identified by a token), the trampoline `TplFunc`s that
`_extend` installs (capturing only the block name — resolution happens at
call time), references to template instances, and everything else. -/
inductive GVal where
  | tplFunc (id : Nat)
  | tramp (name : Str)
  | instRef (id : Nat)
  | other (id : Nat)
deriving DecidableEq

/-- `isinstance(v, TplFunc)`. -/
def isTplFunc : GVal → Bool
  | .tplFunc _ => true
  | .tramp _ => true
  | _ => false

structure Inst where
  id : Nat
  globals : List (Str × GVal)
  attrs : List (Str × GVal)
deriving DecidableEq

def mainName : Str := "__main__".data
def childName : Str := "child".data
def localName : Str := "local".data
def selfName : Str := "self".data
def parentName : Str := "parent".data

/-- Attribute names present on every `_Template` instance through its
class, in addition to per-instance attributes (`hasattr` sees both). -/
def templateClassAttrs : List Str :=
  ["__methods__", "loader", "base_globals", "filename", "render",
    "defined", "annotate_lnotab", "_context", "__globals__", "__kj__",
    "_switch_stack", "_with_stack"].map String.data

/-- `hasattr(inst, k)`. -/
def hasattrB (inst : Inst) (k : Str) : Bool :=
  (getk inst.attrs k).isSome || decide (k ∈ templateClassAttrs)

/-- First pass of `_extend`: copy every `TplFunc` bound in the child's
namespace (except `__main__`) over the parent's namespace. -/
def extendPass1 (childG pG : List (Str × GVal)) : List (Str × GVal) :=
  childG.foldl
    (fun pg kv =>
      if kv.1 = mainName then pg
      else if isTplFunc kv.2 then setk pg kv.1 kv.2
      else pg)
    pG

/-- One iteration of the second pass of `_extend` for a parent-namespace
entry: add missing `TplFunc`s to the child's namespace, and install a
trampoline attribute when the child instance has no such attribute. -/
def extendStep2 (c : Inst) (kv : Str × GVal) : Inst :=
  if kv.1 = mainName then c
  else if isTplFunc kv.2 = false then c
  else
    let c1 := if (getk c.globals kv.1).isSome then c
              else { c with globals := setk c.globals kv.1 kv.2 }
    if hasattrB c1 kv.1 then c1
    else { c1 with attrs := setk c1.attrs kv.1 (GVal.tramp kv.1) }

def extendPass2 (c : Inst) (pg : List (Str × GVal)) : Inst :=
  pg.foldl extendStep2 c

/-- `_Template._extend`, given the child instance and the freshly
constructed parent instance `p_inst = parent(self._context)`: the two
override passes, then the cross-links (`p_globals['child'/'local'/'self']`,
child `'parent'`/`'local'`).  Returns (updated child, updated parent).
A constructed instance always carries a `'self'` entry; the `getD`
default is the unreachable `KeyError` arm. -/
def _extend (child p_inst : Inst) : Inst × Inst :=
  let pg1 := extendPass1 child.globals p_inst.globals
  let child1 := extendPass2 child pg1
  let pg2 :=
    setk (setk (setk pg1 childName (GVal.instRef child.id))
        localName (GVal.instRef p_inst.id))
      selfName ((getk child1.globals selfName).getD (GVal.other 0))
  let childG :=
    setk (setk child1.globals parentName (GVal.instRef p_inst.id))
      localName (GVal.instRef child.id)
  ({ child1 with globals := childG }, { p_inst with globals := pg2 })

/-- Attribute read `getattr(inst, k)` restricted to per-instance
attributes (which is where bound blocks and trampolines live). -/
def getattrI (inst : Inst) (k : Str) : Option GVal := getk inst.attrs k

/-- Calling the trampoline installed for block `k` on instance `c`:
`TplFunc.__call__` rebinds the body's globals to `c.__globals__`, so the
body's `global parent` resolves `"parent"` there *at call time*, then
forwards to `getattr(parent, k)`. -/
def trampCall (env : Nat → Option Inst) (c : Inst) (k : Str) : Option GVal :=
  match getk c.globals parentName with
  | some (GVal.instRef pid) => (env pid).bind (fun pi => getattrI pi k)
  | _ => Option.none

/-! ### Lemmas about the two passes of `_extend` -/

theorem extendPass1_nil (pg : List (Str × GVal)) : extendPass1 [] pg = pg := rfl

theorem extendPass1_cons (kv : Str × GVal) (cg pg : List (Str × GVal)) :
    extendPass1 (kv :: cg) pg =
      extendPass1 cg
        (if kv.1 = mainName then pg
         else if isTplFunc kv.2 then setk pg kv.1 kv.2
         else pg) := rfl

theorem extendPass1_not_mem : ∀ (cg : List (Str × GVal))
    (pg : List (Str × GVal)) {k : Str}, k ∉ keys cg →
    getk (extendPass1 cg pg) k = getk pg k
  | [], _, _, _ => rfl
  | kv :: cg, pg, k, h => by
    simp only [keys, List.map_cons, List.mem_cons] at h
    push_neg at h
    rw [extendPass1_cons, extendPass1_not_mem cg _ h.2]
    by_cases h1 : kv.1 = mainName
    · rw [if_pos h1]
    · rw [if_neg h1]
      by_cases h2 : isTplFunc kv.2 = true
      · rw [if_pos h2, getk_setk_ne _ _ h.1]
      · rw [if_neg h2]

theorem extendPass1_mem : ∀ (cg : List (Str × GVal))
    (pg : List (Str × GVal)) {k : Str} {v : GVal},
    NodupKeys cg → (k, v) ∈ cg → ¬ k = mainName → isTplFunc v = true →
    getk (extendPass1 cg pg) k = some v
  | [], _, _, _, _, hm, _, _ => absurd hm (List.not_mem_nil _)
  | (k', v') :: cg, pg, k, v, hnd, hm, hk, hv => by
    have hnd' := List.nodup_cons.mp hnd
    rw [extendPass1_cons]
    rcases List.mem_cons.mp hm with he | hm2
    · rw [Prod.mk.injEq] at he
      obtain ⟨he1, he2⟩ := he
      subst he1
      subst he2
      have hfresh : k ∉ keys cg := hnd'.1
      rw [extendPass1_not_mem cg _ hfresh]
      rw [if_neg hk, if_pos hv, getk_setk_self]
    · exact extendPass1_mem cg _ hnd'.2 hm2 hk hv

theorem extendPass1_nodup : ∀ (cg pg : List (Str × GVal)),
    NodupKeys pg → NodupKeys (extendPass1 cg pg)
  | [], _, h => h
  | kv :: cg, pg, h => by
    rw [extendPass1_cons]
    apply extendPass1_nodup
    by_cases h1 : kv.1 = mainName
    · rw [if_pos h1]
      exact h
    · rw [if_neg h1]
      by_cases h2 : isTplFunc kv.2 = true
      · rw [if_pos h2]
        exact nodupKeys_setk _ _ _ h
      · rw [if_neg h2]
        exact h

theorem extendPass2_nil (c : Inst) : extendPass2 c [] = c := rfl

theorem extendPass2_cons (c : Inst) (kv : Str × GVal)
    (pg : List (Str × GVal)) :
    extendPass2 c (kv :: pg) = extendPass2 (extendStep2 c kv) pg := rfl

theorem extendStep2_globals_ne (c : Inst) (kv : Str × GVal) {j : Str}
    (h : j ≠ kv.1) : getk (extendStep2 c kv).globals j = getk c.globals j := by
  unfold extendStep2
  by_cases h1 : kv.1 = mainName
  · rw [if_pos h1]
  · rw [if_neg h1]
    by_cases h2 : isTplFunc kv.2 = false
    · rw [if_pos h2]
    · rw [if_neg h2]
      simp only
      by_cases h3 : (getk c.globals kv.1).isSome = true
      · rw [if_pos h3]
        by_cases h4 : hasattrB c kv.1 = true
        · rw [if_pos h4]
        · rw [if_neg h4]
      · rw [if_neg h3]
        by_cases h4 : hasattrB { c with globals := setk c.globals kv.1 kv.2 } kv.1 = true
        · rw [if_pos h4]
          exact getk_setk_ne _ _ h
        · rw [if_neg h4]
          exact getk_setk_ne _ _ h

theorem extendStep2_attrs_ne (c : Inst) (kv : Str × GVal) {j : Str}
    (h : j ≠ kv.1) : getk (extendStep2 c kv).attrs j = getk c.attrs j := by
  unfold extendStep2
  by_cases h1 : kv.1 = mainName
  · rw [if_pos h1]
  · rw [if_neg h1]
    by_cases h2 : isTplFunc kv.2 = false
    · rw [if_pos h2]
    · rw [if_neg h2]
      simp only
      by_cases h3 : (getk c.globals kv.1).isSome = true
      · rw [if_pos h3]
        by_cases h4 : hasattrB c kv.1 = true
        · rw [if_pos h4]
        · rw [if_neg h4]
          exact getk_setk_ne _ _ h
      · rw [if_neg h3]
        by_cases h4 : hasattrB { c with globals := setk c.globals kv.1 kv.2 } kv.1 = true
        · rw [if_pos h4]
        · rw [if_neg h4]
          exact getk_setk_ne _ _ h

theorem extendStep2_globals_some (c : Inst) (kv : Str × GVal) {j : Str}
    {v : GVal} (h : getk c.globals j = some v) :
    getk (extendStep2 c kv).globals j = some v := by
  by_cases hj : j = kv.1
  · subst hj
    unfold extendStep2
    by_cases h1 : kv.1 = mainName
    · rw [if_pos h1]
      exact h
    · rw [if_neg h1]
      by_cases h2 : isTplFunc kv.2 = false
      · rw [if_pos h2]
        exact h
      · rw [if_neg h2]
        simp only
        have hc1 : (if (getk c.globals kv.1).isSome = true then c
            else { c with globals := setk c.globals kv.1 kv.2 }) = c := by
          rw [h]
          rfl
        rw [hc1]
        by_cases h4 : hasattrB c kv.1 = true
        · rw [if_pos h4]
          exact h
        · rw [if_neg h4]
          exact h
  · rw [extendStep2_globals_ne c kv hj]
    exact h

theorem extendPass2_globals_some : ∀ (pg : List (Str × GVal)) (c : Inst)
    {j : Str} {v : GVal}, getk c.globals j = some v →
    getk (extendPass2 c pg).globals j = some v
  | [], _, _, _, h => h
  | kv :: pg, c, j, v, h => by
    rw [extendPass2_cons]
    exact extendPass2_globals_some pg _ (extendStep2_globals_some c kv h)

theorem extendPass2_not_mem : ∀ (pg : List (Str × GVal)) (c : Inst)
    {k : Str}, k ∉ keys pg →
    getk (extendPass2 c pg).globals k = getk c.globals k ∧
      getk (extendPass2 c pg).attrs k = getk c.attrs k
  | [], _, _, _ => ⟨rfl, rfl⟩
  | kv :: pg, c, k, h => by
    simp only [keys, List.map_cons, List.mem_cons] at h
    push_neg at h
    rw [extendPass2_cons]
    have ih := extendPass2_not_mem pg (extendStep2 c kv) h.2
    exact ⟨ih.1.trans (extendStep2_globals_ne c kv h.1),
      ih.2.trans (extendStep2_attrs_ne c kv h.1)⟩

theorem extendStep2_hasattr_ne (c : Inst) (kv : Str × GVal) {j : Str}
    (h : j ≠ kv.1) : hasattrB (extendStep2 c kv) j = hasattrB c j := by
  unfold hasattrB
  rw [extendStep2_attrs_ne c kv h]

theorem extendStep2_install (c : Inst) (k : Str) (v : GVal)
    (hk : ¬ k = mainName) (hv : isTplFunc v = true)
    (hg : getk c.globals k = Option.none) (ha : hasattrB c k = false) :
    extendStep2 c (k, v) =
      { c with globals := setk c.globals k v,
               attrs := setk c.attrs k (GVal.tramp k) } := by
  have hv' : ¬ (isTplFunc v = false) := by
    rw [hv]
    exact fun h => Bool.noConfusion h
  have ha' : ¬ (hasattrB { c with globals := setk c.globals k v } k = true) := by
    have he : hasattrB { c with globals := setk c.globals k v } k =
        hasattrB c k := rfl
    rw [he, ha]
    exact fun h => Bool.noConfusion h
  unfold extendStep2
  dsimp only
  rw [if_neg hk, if_neg hv', hg,
    if_neg (show ¬ ((Option.none : Option GVal).isSome = true) from by decide),
    if_neg ha']

theorem extendPass2_adds : ∀ (pg : List (Str × GVal)) (c : Inst) {k : Str}
    {v : GVal}, NodupKeys pg → (k, v) ∈ pg → isTplFunc v = true →
    ¬ k = mainName → getk c.globals k = Option.none → hasattrB c k = false →
    getk (extendPass2 c pg).globals k = some v ∧
      getk (extendPass2 c pg).attrs k = some (GVal.tramp k)
  | [], _, _, _, _, hm, _, _, _, _ => absurd hm (List.not_mem_nil _)
  | (k', v') :: pg, c, k, v, hnd, hm, hv, hk, hg, ha => by
    have hnd' := List.nodup_cons.mp hnd
    rw [extendPass2_cons]
    rcases List.mem_cons.mp hm with he | hm2
    · rw [Prod.mk.injEq] at he
      obtain ⟨he1, he2⟩ := he
      subst he1
      subst he2
      rw [extendStep2_install c k v hk hv hg ha]
      have hrest := extendPass2_not_mem pg
        { c with globals := setk c.globals k v,
                 attrs := setk c.attrs k (GVal.tramp k) } hnd'.1
      refine ⟨hrest.1.trans ?_, hrest.2.trans ?_⟩
      · exact getk_setk_self _ _ _
      · exact getk_setk_self _ _ _
    · have hkmem : (k, v).1 ∈ List.map Prod.fst pg :=
        List.mem_map_of_mem Prod.fst hm2
      have hkk : k ≠ k' := fun he => hnd'.1 (he ▸ hkmem)
      exact extendPass2_adds pg (extendStep2 c (k', v')) hnd'.2 hm2 hv hk
        ((extendStep2_globals_ne c (k', v') hkk).trans hg)
        ((extendStep2_hasattr_ne c (k', v') hkk).trans ha)

/-- C1 (amended): after `extend`, every `TplFunc` bound in the child's
namespace — other than `__main__` and the cross-link names `child` and
`local`, which `_extend` rebinds to the child and parent instances after
the copy — appears in the fresh parent instance's namespace as the
child's version, so the parent's body resolves an overridden block name
to the child's block. -/
theorem extend_overrides_parent_namespace (child p : Inst) (k : Str)
    (v : GVal) (hnd : NodupKeys child.globals) (hmain : ¬ k = mainName)
    (hchild : ¬ k = childName) (hlocal : ¬ k = localName)
    (hv : isTplFunc v = true) (hb : getk child.globals k = some v) :
    getk (_extend child p).2.globals k = some v := by
  unfold _extend
  dsimp only
  by_cases hself : k = selfName
  · subst hself
    rw [getk_setk_self,
      extendPass2_globals_some (extendPass1 child.globals p.globals) child hb]
    rfl
  · rw [getk_setk_ne _ _ hself, getk_setk_ne _ _ hlocal,
      getk_setk_ne _ _ hchild]
    exact extendPass1_mem child.globals p.globals hnd (getk_some_mem hb)
      hmain hv

def c1Child : Inst :=
  ⟨0, [(mainName, .tplFunc 0), (localName, .tplFunc 7), (selfName, .instRef 0)],
    [(mainName, .tplFunc 0), (localName, .tplFunc 7)]⟩

def c1Parent : Inst :=
  ⟨1, [(mainName, .tplFunc 1), (selfName, .instRef 1)], [(mainName, .tplFunc 1)]⟩

/-- C1 counterexample: a child whose namespace binds the Exposed Function
`local` (an exposed block named `local` overwrites the initial self-link
in `__init__`).  After `extend`, the parent's namespace entry `local` is
the parent instance — `_extend`'s cross-linking overwrote the copied
child version — contradicting the claim for this Exposed Function. -/
theorem extend_override_reserved_name_cex :
    getk c1Child.globals localName = some (GVal.tplFunc 7) ∧
    isTplFunc (GVal.tplFunc 7) = true ∧
    ¬ localName = mainName ∧
    ¬ getk (_extend c1Child c1Parent).2.globals localName =
        some (GVal.tplFunc 7) := by decide

/-- Witness for C1: a concrete child overriding block `header`. -/
def w1Child : Inst :=
  ⟨0, [(mainName, .tplFunc 0), ("header".data, .tplFunc 5), (selfName, .instRef 0)],
    [(mainName, .tplFunc 0), ("header".data, .tplFunc 5)]⟩

def w1Parent : Inst :=
  ⟨1, [(mainName, .tplFunc 1), ("header".data, .tplFunc 6), (selfName, .instRef 1)],
    [(mainName, .tplFunc 1), ("header".data, .tplFunc 6)]⟩

theorem extend_overrides_parent_namespace_witness :
    getk (_extend w1Child w1Parent).2.globals "header".data =
      some (GVal.tplFunc 5) :=
  extend_overrides_parent_namespace w1Child w1Parent "header".data
    (GVal.tplFunc 5) (by decide) (by decide) (by decide) (by decide)
    (by decide) (by decide)

theorem extendStep2_adds_globals (c : Inst) (k : Str) (v : GVal)
    (hk : ¬ k = mainName) (hv : isTplFunc v = true)
    (hg : getk c.globals k = Option.none) :
    getk (extendStep2 c (k, v)).globals k = some v := by
  have hv' : ¬ (isTplFunc v = false) := by
    rw [hv]
    exact fun h => Bool.noConfusion h
  unfold extendStep2
  dsimp only
  rw [if_neg hk, if_neg hv', hg,
    if_neg (show ¬ ((Option.none : Option GVal).isSome = true) from by decide)]
  by_cases h4 : hasattrB { c with globals := setk c.globals k v } k = true
  · rw [if_pos h4]
    exact getk_setk_self _ _ _
  · rw [if_neg h4]
    exact getk_setk_self _ _ _

theorem extendPass2_adds_globals : ∀ (pg : List (Str × GVal)) (c : Inst)
    {k : Str} {v : GVal}, NodupKeys pg → (k, v) ∈ pg →
    isTplFunc v = true → ¬ k = mainName →
    getk c.globals k = Option.none →
    getk (extendPass2 c pg).globals k = some v
  | [], _, _, _, _, hm, _, _, _ => absurd hm (List.not_mem_nil _)
  | (k', v') :: pg, c, k, v, hnd, hm, hv, hk, hg => by
    have hnd' := List.nodup_cons.mp hnd
    rw [extendPass2_cons]
    rcases List.mem_cons.mp hm with he | hm2
    · rw [Prod.mk.injEq] at he
      obtain ⟨he1, he2⟩ := he
      subst he1
      subst he2
      have hrest := extendPass2_not_mem pg (extendStep2 c (k, v)) hnd'.1
      exact hrest.1.trans (extendStep2_adds_globals c k v hk hv hg)
    · have hkmem : (k, v).1 ∈ List.map Prod.fst pg :=
        List.mem_map_of_mem Prod.fst hm2
      have hkk : k ≠ k' := fun he => hnd'.1 (he ▸ hkmem)
      exact extendPass2_adds_globals pg (extendStep2 c (k', v')) hnd'.2 hm2
        hv hk ((extendStep2_globals_ne c (k', v') hkk).trans hg)

/-- C2 (amended): after `extend`, every `TplFunc` present in the (fresh)
parent's namespace but absent from the child's namespace — other than
the reserved names `parent` and `local`, which `_extend` rebinds to the
parent and child instances after the copy — is added to the child's
namespace unconditionally; additionally, when the child instance has no
attribute of that name, a trampoline is installed on the child that
resolves, at call time, the `parent` entry of the child's *current*
namespace and forwards to that instance's attribute — not to a parent
frozen at extend time. -/
theorem extend_inherits_parent_funcs (child p : Inst) (k : Str) (v : GVal)
    (hndp : NodupKeys p.globals)
    (hmain : (getk child.globals mainName).isSome = true)
    (hparent : ¬ k = parentName) (hlocal : ¬ k = localName)
    (hpv : getk p.globals k = some v) (hv : isTplFunc v = true)
    (habs : getk child.globals k = Option.none) :
    getk (_extend child p).1.globals k = some v ∧
    (hasattrB child k = false →
      getk (_extend child p).1.attrs k = some (GVal.tramp k)) ∧
    getk (_extend child p).1.globals parentName =
      some (GVal.instRef p.id) ∧
    (∀ env : Nat → Option Inst,
      trampCall env (_extend child p).1 k =
        (env p.id).bind (fun pi => getattrI pi k)) ∧
    (∀ (env : Nat → Option Inst) (q : Nat),
      trampCall env
        { (_extend child p).1 with
            globals :=
              setk (_extend child p).1.globals parentName (GVal.instRef q) }
        k =
        (env q).bind (fun pi => getattrI pi k)) := by
  have hkmain : ¬ k = mainName := by
    intro he
    subst he
    rw [habs] at hmain
    exact Bool.noConfusion hmain
  have hpg1 : getk (extendPass1 child.globals p.globals) k = some v := by
    rw [extendPass1_not_mem child.globals p.globals
      (getk_none_not_mem_keys habs)]
    exact hpv
  have hnd1 : NodupKeys (extendPass1 child.globals p.globals) :=
    extendPass1_nodup child.globals p.globals hndp
  have hpl : ¬ (parentName = localName) := by decide
  refine ⟨?_, ?_, ?_, ?_, ?_⟩
  · show getk (setk (setk _ parentName _) localName _) k = some v
    rw [getk_setk_ne _ _ hlocal, getk_setk_ne _ _ hparent]
    exact extendPass2_adds_globals (extendPass1 child.globals p.globals)
      child hnd1 (getk_some_mem hpg1) hv hkmain habs
  · intro hattr
    exact (extendPass2_adds (extendPass1 child.globals p.globals) child
      hnd1 (getk_some_mem hpg1) hv hkmain habs hattr).2
  · show getk (setk (setk _ parentName _) localName _) parentName = _
    rw [getk_setk_ne _ _ hpl, getk_setk_self]
  · intro env
    have h3 : getk (_extend child p).1.globals parentName =
        some (GVal.instRef p.id) := by
      show getk (setk (setk _ parentName _) localName _) parentName = _
      rw [getk_setk_ne _ _ hpl, getk_setk_self]
    unfold trampCall
    rw [h3]
  · intro env q
    unfold trampCall
    dsimp only
    rw [getk_setk_self]

def c2Child : Inst :=
  ⟨0, [(mainName, .tplFunc 0), (selfName, .instRef 0)],
    [(mainName, .tplFunc 0)]⟩

def c2Parent : Inst :=
  ⟨1, [(mainName, .tplFunc 1), (parentName, .tplFunc 3), (selfName, .instRef 1)],
    [(mainName, .tplFunc 1), (parentName, .tplFunc 3)]⟩

/-- C2 counterexample: the parent's namespace binds the Exposed Function
`parent`, absent from the child's namespace, yet after `extend` the
child's namespace entry `parent` is the parent instance reference — the
cross-linking overwrote the inherited function — so the claim fails for
this Exposed Function. -/
theorem extend_inherit_reserved_name_cex :
    getk c2Parent.globals parentName = some (GVal.tplFunc 3) ∧
    isTplFunc (GVal.tplFunc 3) = true ∧
    getk c2Child.globals parentName = Option.none ∧
    ¬ parentName = mainName ∧
    ¬ getk (_extend c2Child c2Parent).1.globals parentName =
        some (GVal.tplFunc 3) := by decide

def w2Child : Inst :=
  ⟨0, [(mainName, .tplFunc 0), (selfName, .instRef 0)],
    [(mainName, .tplFunc 0)]⟩

def w2Parent : Inst :=
  ⟨1, [(mainName, .tplFunc 1), ("footer".data, .tplFunc 9), (selfName, .instRef 1)],
    [(mainName, .tplFunc 1), ("footer".data, .tplFunc 9)]⟩

def w2Env : Nat → Option Inst := fun n =>
  if n = 1 then some w2Parent else Option.none

/-- Witness for C2: a child without block `footer` extending a parent
that defines it; the inherited entry, the trampoline, and its call-time
resolution through the linked parent. -/
theorem extend_inherits_parent_funcs_witness :
    getk (_extend w2Child w2Parent).1.globals "footer".data =
      some (GVal.tplFunc 9) ∧
    getk (_extend w2Child w2Parent).1.attrs "footer".data =
      some (GVal.tramp "footer".data) ∧
    trampCall w2Env (_extend w2Child w2Parent).1 "footer".data =
      some (GVal.tplFunc 9) := by
  have h := extend_inherits_parent_funcs w2Child w2Parent "footer".data
    (GVal.tplFunc 9) (by decide) (by decide) (by decide) (by decide)
    (by decide) (by decide) (by decide)
  refine ⟨h.1, h.2.1 (by decide), ?_⟩
  rw [h.2.2.2.1 w2Env]
  decide

/-! ### The escaper, collect, with-stack, attribute and loader claims -/

/-- C3: `_escape` passes `None` through unchanged (not stringified);
text containing none of `&`, `<`, `>`, `"` is returned unchanged; the
four chained replaces act as the per-character map `escChar`, applied in
a single left-to-right pass in the order `&`, `<`, `>`, `"` (inserted
replacement text is never rescanned, and the single quote — code point
39 — is never escaped); hence text holding a literal `&amp;` has its `&`
re-escaped, giving `&amp;amp;`. -/
theorem escape_policy :
    escape EscVal.pynone = EscVal.pynone ∧
    (∀ s : Str, hasSpecial s = false →
      escape (EscVal.text s) = EscVal.text s) ∧
    (∀ s : Str, escapeStr s = s.flatMap escChar) ∧
    escChar (Char.ofNat 39) = [Char.ofNat 39] ∧
    escapeStr "&amp;".data = "&amp;amp;".data := by
  refine ⟨rfl, ?_, escapeStr_eq_flatMap, by decide, by decide⟩
  intro s h
  show EscVal.text (escapeStr s) = EscVal.text s
  rw [escapeStr, if_neg (fun hc => Bool.noConfusion (h.symm.trans hc))]

theorem escape_policy_witness :
    hasSpecial "abc".data = false ∧
    escape (EscVal.text "abc".data) = EscVal.text "abc".data :=
  ⟨by decide, escape_policy.2.1 "abc".data (by decide)⟩

/-- C6: `_collect` joins the non-`None` fragments in order and returns
`None` (absent) exactly when no fragment remains after filtering; an
empty result list maps to absent, while a single empty-text fragment
joins to empty text, not to absent. -/
theorem collect_three_valued :
    (∀ it : List (Option Str),
      _collect it = Option.none ↔ it.filterMap id = []) ∧
    _collect [] = Option.none ∧
    _collect [some "a".data, Option.none, some "b".data] = some "ab".data ∧
    _collect [some []] = some [] := by
  refine ⟨?_, rfl, by decide, rfl⟩
  intro it
  cases hfm : it.filterMap id with
  | nil =>
    show (if (it.filterMap id).isEmpty = true then Option.none
        else some (it.filterMap id).flatten) = Option.none ↔ _
    rw [hfm]
    exact ⟨fun _ => rfl, fun _ => rfl⟩
  | cons a l =>
    show (if (it.filterMap id).isEmpty = true then Option.none
        else some (it.filterMap id).flatten) = Option.none ↔ _
    rw [hfm]
    constructor
    · intro hc
      exact Option.noConfusion hc
    · intro he
      exact List.noConfusion he

/-- C7: `_push_with` immediately followed by `_pop_with` returns exactly
the captured list — for each name in order, the snapshot's binding or
the unset sentinel `()` — and restores the prior with-scope stack;
concretely `{"x": 5}` captures `[5]` and a missing `x` captures the
sentinel. -/
theorem push_pop_with_roundtrip :
    (∀ (stack : List (List PyVal)) (locals_ : List (Str × PyVal))
      (vars : List Str),
      _pop_with (_push_with stack locals_ vars) =
        some (vars.map (fun k => (getk locals_ k).getD PyVal.emptyTup),
          stack)) ∧
    _pop_with (_push_with [] [("x".data, PyVal.int 5)] ["x".data]) =
      some ([PyVal.int 5], []) ∧
    _pop_with (_push_with [] [] ["x".data]) =
      some ([PyVal.emptyTup], []) :=
  ⟨fun _ _ _ => rfl, by decide, rfl⟩

/-- C9: the with-scope unset sentinel is the empty tuple, so a snapshot
binding a name to `()` pushes exactly what the snapshot with that name
absent pushes — the two are indistinguishable on restore. -/
theorem push_with_empty_tuple_sentinel :
    (∀ (stack : List (List PyVal)) (locals_ : List (Str × PyVal))
      (vars : List Str) (k : Str),
      _push_with stack (setk locals_ k PyVal.emptyTup) vars =
        _push_with stack (removek locals_ k) vars) ∧
    _push_with [] [] ["x".data] = [[PyVal.emptyTup]] := by
  refine ⟨?_, rfl⟩
  intro stack locals_ vars k
  unfold _push_with
  congr 1
  apply List.map_congr_left
  intro j _
  by_cases hj : j = k
  · subst hj
    rw [getk_setk_self, getk_removek_self]
    rfl
  · rw [getk_setk_ne _ _ hj, getk_removek_ne _ hj]

/-- C8: the `py_linenos` table maps generated line `j + 1` to the
maximum template line number annotated on generated lines `1 .. j + 1`
(missing annotations read as 0, carrying the running maximum forward),
and consequently its template line numbers are monotonically
non-decreasing in generated-line order. -/
theorem py_linenos_running_max :
    (∀ (lines : List (Option Nat)) (j : Nat), j < lines.length →
      (py_linenos lines).get? j =
        some (j + 1, foldMaxFrom 0 (lines.take (j + 1)))) ∧
    (∀ lines : List (Option Nat),
      List.Chain' (· ≤ ·) ((py_linenos lines).map Prod.snd)) := by
  constructor
  · intro lines j h
    rw [py_linenos, build_linenos_get? lines 0 1 j h]
    rw [Nat.add_comm 1 j]
  · intro lines
    have hch : List.Chain' (· ≤ ·)
        (0 :: (py_linenos lines).map Prod.snd) :=
      build_linenos_snd_chain lines 0 1
    exact hch.tail

theorem py_linenos_running_max_witness :
    (py_linenos [some 3, Option.none, some 5]).get? 1 = some (2, 3) := by
  rw [py_linenos_running_max.1 [some 3, Option.none, some 5] 1 (by decide)]
  decide

/-! ### Sorting facts for `_render_attrs` -/

theorem strLeB_refl : ∀ a : Str, strLeB a a = true
  | [] => rfl
  | x :: xs => by
    have h : ¬ (charLtB x x = true) := fun hc =>
      absurd (of_decide_eq_true hc) (Nat.lt_irrefl _)
    rw [strLeB_cons, if_neg h, if_neg h]
    exact strLeB_refl xs

theorem pairLeB_key {p q : Str × AttrVal} (h : pairLeB p q = true) :
    strLeB p.1 q.1 = true := by
  unfold pairLeB at h
  by_cases e : p.1 = q.1
  · rw [e]
    exact strLeB_refl _
  · rw [if_neg e] at h
    exact h

theorem sortAttrs_perm (attrs : List (Str × AttrVal)) :
    (sortAttrs attrs).Perm attrs :=
  List.perm_insertionSort attrLe attrs

theorem sortAttrs_sorted (attrs : List (Str × AttrVal)) :
    List.Pairwise attrLe (sortAttrs attrs) :=
  List.sorted_insertionSort attrLe attrs

theorem sortAttrs_perm_eq {l l2 : List (Str × AttrVal)} (h : l.Perm l2) :
    sortAttrs l = sortAttrs l2 :=
  List.eq_of_perm_of_sorted
    ((sortAttrs_perm l).trans (h.trans (sortAttrs_perm l2).symm))
    (sortAttrs_sorted l) (sortAttrs_sorted l2)

/-- C4: `_render_attrs` iterates the pairs as a permutation of the input
sorted with non-decreasing names, so for a mapping input the fragment
sequence is the same whatever iteration order the mapping presents;
concretely `{"b": "2", "a": "1"}` yields `' a="1"'` then `' b="2"'`. -/
theorem render_attrs_mapping_deterministic :
    (∀ attrs : List (Str × AttrVal),
      (sortAttrs attrs).Perm attrs ∧
      List.Pairwise (fun pq qr => strLeB pq.1 qr.1 = true)
        (sortAttrs attrs)) ∧
    (∀ (attrs attrs2 : List (Str × AttrVal)) (mode : Str),
      NodupKeys attrs → attrs.Perm attrs2 →
      _render_attrs attrs mode = _render_attrs attrs2 mode) ∧
    _render_attrs
      [("b".data, AttrVal.strv "2".data), ("a".data, AttrVal.strv "1".data)]
      "xml".data = [" a=\"1\"".data, " b=\"2\"".data] := by
  refine ⟨?_, ?_, by decide⟩
  · intro attrs
    exact ⟨sortAttrs_perm attrs,
      (sortAttrs_sorted attrs).imp (fun h => pairLeB_key h)⟩
  · intro attrs attrs2 mode _ hperm
    unfold _render_attrs
    rw [sortAttrs_perm_eq hperm]

theorem render_attrs_mapping_deterministic_witness :
    _render_attrs
      [("b".data, AttrVal.strv "2".data), ("a".data, AttrVal.strv "1".data)]
      "xml".data =
    _render_attrs
      [("a".data, AttrVal.strv "1".data), ("b".data, AttrVal.strv "2".data)]
      "xml".data :=
  render_attrs_mapping_deterministic.2.1 _ _ "xml".data (by decide)
    (List.Perm.swap _ _ _)

/-- C10: `_render_attrs` sorts every input, an already-ordered pair
sequence included: the fragments are invariant under any permutation of
the pairs, so a caller-supplied order is never preserved; concretely the
ordered input `[("b", "2"), ("a", "1")]` still renders `a` first. -/
theorem render_attrs_sorts_sequences :
    (∀ (attrs attrs2 : List (Str × AttrVal)) (mode : Str), attrs.Perm attrs2 →
      _render_attrs attrs mode = _render_attrs attrs2 mode) ∧
    _render_attrs
      [("b".data, AttrVal.strv "2".data), ("a".data, AttrVal.strv "1".data)]
      "html5".data = [" a=\"1\"".data, " b=\"2\"".data] := by
  refine ⟨?_, by decide⟩
  intro attrs attrs2 mode hperm
  unfold _render_attrs
  rw [sortAttrs_perm_eq hperm]

theorem render_attrs_sorts_sequences_witness :
    _render_attrs
      [("id".data, AttrVal.strv "x".data), ("class".data, AttrVal.strv "y".data)]
      "xml".data =
    _render_attrs
      [("class".data, AttrVal.strv "y".data), ("id".data, AttrVal.strv "x".data)]
      "xml".data :=
  render_attrs_sorts_sequences.1 _ _ "xml".data (List.Perm.swap _ _ _)

/-- C5: for a recognized boolean-style attribute name, value `true` is
rewritten to the name itself and `false` to the omit marker; any pair
whose rewritten value is the omit marker (`None`) produces no fragment;
in an html-family mode a recognized boolean attribute renders as the
bare lower-cased `' name'`; so `{"checked": false}` produces nothing and
`{"checked": true}` produces `' checked'`. -/
theorem render_attrs_bool_elision :
    (∀ k : Str, htmlEmptyAttr k = true →
      boolRewrite k (AttrVal.boolv true) = AttrVal.strv k ∧
      boolRewrite k (AttrVal.boolv false) = AttrVal.omitv) ∧
    (∀ (mode : Str) (kv : Str × AttrVal),
      boolRewrite kv.1 kv.2 = AttrVal.omitv →
      attrFrag mode kv = Option.none) ∧
    (∀ (mode k : Str) (v : AttrVal), "html".data.isPrefixOf mode = true →
      htmlEmptyAttr k = true → ¬ boolRewrite k v = AttrVal.omitv →
      attrFrag mode (k, v) = some (' ' :: k.map Char.toLower)) ∧
    (∀ mode : Str, "html".data.isPrefixOf mode = true →
      _render_attrs [("checked".data, AttrVal.boolv false)] mode = [] ∧
      _render_attrs [("checked".data, AttrVal.boolv true)] mode =
        [" checked".data]) := by
  have hfragNone : ∀ (mode : Str) (kv : Str × AttrVal),
      boolRewrite kv.1 kv.2 = AttrVal.omitv →
      attrFrag mode kv = Option.none := by
    intro mode kv h
    unfold attrFrag
    dsimp only
    rw [if_pos h]
  have hfragBare : ∀ (mode k : Str) (v : AttrVal),
      "html".data.isPrefixOf mode = true → htmlEmptyAttr k = true →
      ¬ boolRewrite k v = AttrVal.omitv →
      attrFrag mode (k, v) = some (' ' :: k.map Char.toLower) := by
    intro mode k v hm hk hnot
    unfold attrFrag
    dsimp only
    rw [if_neg hnot, if_pos ⟨hm, hk⟩]
  refine ⟨?_, hfragNone, hfragBare, ?_⟩
  · intro k hk
    constructor
    · unfold boolRewrite
      rw [if_pos ⟨hk, Or.inl rfl⟩, if_pos rfl]
    · unfold boolRewrite
      rw [if_pos ⟨hk, Or.inr rfl⟩, if_neg (by decide)]
  · intro mode hm
    constructor
    · show List.filterMap (attrFrag mode)
        [("checked".data, AttrVal.boolv false)] = []
      rw [List.filterMap_cons_none
        (hfragNone mode ("checked".data, AttrVal.boolv false) (by decide))]
      rfl
    · show List.filterMap (attrFrag mode)
        [("checked".data, AttrVal.boolv true)] = [" checked".data]
      rw [List.filterMap_cons_some
        (hfragBare mode "checked".data (AttrVal.boolv true) hm (by decide)
          (by decide))]
      rw [show (' ' :: List.map Char.toLower "checked".data) =
        " checked".data from by decide]
      rfl

theorem render_attrs_bool_elision_witness :
    _render_attrs [("checked".data, AttrVal.boolv false)] "html".data = [] ∧
    _render_attrs [("checked".data, AttrVal.boolv true)] "html".data =
      [" checked".data] :=
  render_attrs_bool_elision.2.2.2 "html".data (by decide)

end KajikiSpec
